import Mathlib

/-!
Verification development for the chiselstrike scripted endpoint runtime.

The definitions below are a shallow embedding of the Rust sources:
  - `src/server/src/deno.rs`   (module loader, endpoint table, host ops,
    request-path thread local, define_endpoint)
  - `src/server/src/policies.rs` (FieldPolicies, UserAuthorization,
    VersionPolicy::from_yaml, anonymize)
  - `src/chiselc/src/rewrite.rs` (the query-expression rewriter)

External collaborators (the deno/v8 runtime, sqlx cursors, the query
engine, yaml-rust parsing, the regex engine) are represented by explicit
parameters or opaque data carried through unchanged, never re-implemented.
Rust `HashMap`/resource tables are modelled as association lists.
The `u64` endpoint version counter is modelled as `Nat` with its
increment taken modulo `2 ^ 64`, the release-build wrap-around of the
source; resource ids are opaque allocator outputs whose freshness is an
explicit hypothesis where it matters.
A Rust panic (`unwrap`/`todo!`) is modelled as a distinguished outcome
constructor, never as a returned error.
-/

/-- Association list lookup, modelling `HashMap::get`. -/
def AList.get? {κ : Type} {α : Type} [DecidableEq κ] : List (κ × α) → κ → Option α
  | [], _ => none
  | (k₁, v) :: t, k => if k₁ = k then some v else AList.get? t k

/-- Association list update/insert, modelling `HashMap::insert` /
`Entry::insert`. An existing binding is overwritten in place; a new key is
appended. -/
def AList.set {κ : Type} {α : Type} [DecidableEq κ] : List (κ × α) → κ → α → List (κ × α)
  | [], k, v => [(k, v)]
  | (k₁, v₁) :: t, k, v => if k₁ = k then (k, v) :: t else (k₁, v₁) :: AList.set t k v

theorem AList.get_set_self {κ α : Type} [DecidableEq κ] (l : List (κ × α)) (k : κ) (v : α) :
    AList.get? (AList.set l k v) k = some v := by
  induction l with
  | nil => simp [AList.set, AList.get?]
  | cons h t ih =>
    by_cases hk : h.1 = k
    · simp [AList.set, hk, AList.get?]
    · simp [AList.set, hk, AList.get?, ih]

theorem AList.get_set_ne {κ α : Type} [DecidableEq κ] (l : List (κ × α)) (k k₂ : κ) (v : α)
    (h : k ≠ k₂) : AList.get? (AList.set l k v) k₂ = AList.get? l k₂ := by
  induction l with
  | nil => simp [AList.set, AList.get?, h]
  | cons hd t ih =>
    by_cases hk : hd.1 = k
    · simp [AList.set, hk, AList.get?, h]
    · simp [AList.set, hk, AList.get?, ih]

/-! ## JSON values (serde_json::Value)

Numeric payloads are carried as `Int`; no arithmetic is ever performed on
them in the code under study, they are moved around opaquely. Object
fields are an association list (serde map iteration applies transforms
field by field; the claims do not depend on map ordering). -/

inductive Value where
  | null
  | bool (b : Bool)
  | num (n : Int)
  | str (s : String)
  | arr (xs : List Value)
  | obj (fields : List (String × Value))

/-- `value["key"]` read access: serde returns `Null` for a missing key or a
non-object receiver. -/
def Value.getKey : Value → String → Value
  | .obj fs, k => match AList.get? fs k with
    | some v => v
    | none => .null
  | _, _ => .null

/-- `value.get("key")`: `Some` only when the receiver is an object holding
the key. -/
def Value.getOpt : Value → String → Option Value
  | .obj fs, k => AList.get? fs k
  | _, _ => none

/-- `value.as_str()`. -/
def Value.asStr : Value → Option String
  | .str s => some s
  | _ => none

/-! ## Claim C1 — the VM module loader (deno.rs, `ModuleLoader::load`) -/

/-- `DUMMY_PREFIX` from deno.rs line 111. -/
def dummyModulePre : String := "file://$chisel$"

/-- A parsed `ModuleSpecifier`: the full URL text and its path component. -/
structure ModuleSpecifier where
  asStr : String
  path : String

/-- What `ModuleLoader::load` does with a specifier.
`fromCodeMap` models the `DUMMY_PREFIX` branch: the code is looked up in
the in-memory map (the source `.unwrap()`s the lookup). `networkFetch`
models the `else` branch, which calls `load_code`, i.e.
`reqwest::get(specifier)` — an HTTP fetch of the module source from the
network, whose body is then compiled and returned as the module source. -/
inductive LoadOutcome where
  | fromCodeMap (code : Option String)
  | networkFetch (url : String)

/-- `str::starts_with`, spelt out on the character lists so that the kernel
can evaluate it. -/
def strStartsWith (s pre : String) : Bool :=
  pre.data.isPrefixOf s.data

/-- `ModuleLoader::load` (deno.rs lines 137-151). -/
def ModuleLoader.load (codeMap : List (String × String)) (spec : ModuleSpecifier) :
    LoadOutcome :=
  if strStartsWith spec.asStr dummyModulePre then
    .fromCodeMap (AList.get? codeMap spec.path)
  else
    .networkFetch spec.asStr

/-- Claim C1: the claim states that a URL outside the reserved prefix is
answered with an error and no network fetch happens. Evaluating the
embedded `ModuleLoader::load` at such a URL shows the code instead takes
the `load_code` branch, which fetches the module body over the network
with `reqwest::get` and returns it (deno.rs lines 122-125, 148-150). The
source itself marks this as wrong ("FIXME: ... the server should not get
code out of the internet", deno.rs lines 319-321), so the claim records
the intended behaviour and the code is the bug. -/
theorem c1_load_network_fetch :
    ModuleLoader.load [] ⟨"https://example.com/x.ts", "/x.ts"⟩ =
      LoadOutcome.networkFetch "https://example.com/x.ts" := by
  rfl

/-! ## Claims C3 and C5 — the endpoint table (deno.rs) -/

/-- Opaque stand-in for `v8::Global<v8::Function>`. -/
structure V8Function where
  tok : Nat
deriving DecidableEq

/-- `VersionedHandler` (deno.rs lines 60-66): `func` is `none` when loading
the module failed; the version must still be set so the endpoint can be
redefined. -/
structure VersionedHandler where
  func : Option V8Function
  version : Nat
deriving DecidableEq

/-- The `handlers` field of `DenoService`. -/
abbrev Handlers := List (String × VersionedHandler)

/-- Outcome of the handler fetch at the top of `run_js_aux` (deno.rs
line 641): `service.handlers.get(&path).unwrap().func.clone().unwrap()`.
`panics` models a Rust panic from either `unwrap`. -/
inductive DispatchOutcome where
  | panics
  | ok (f : V8Function)

/-- The handler lookup performed by `run_js_aux` for a dispatched request,
paired with the handler table after the lookup (the function never
mutates `handlers`). -/
def runJsHandlerLookup (hs : Handlers) (path : String) : DispatchOutcome × Handlers :=
  match AList.get? hs path with
  | none => (.panics, hs)
  | some vh =>
    match vh.func with
    | none => (.panics, hs)
    | some f => (.ok f, hs)

/-- Claim C3, counterexample: dispatching a path with no endpoint entry, or
an entry whose `func` is `None` after a failed load, panics through
`.unwrap()` — it does not return an `EndpointNotLoaded` error (no such
error exists anywhere in deno.rs; the `Error` enum has only `NotAResponse`,
`TypeName`, `JsonField` and `Query`). -/
theorem c3_counterexample :
    runJsHandlerLookup [] "/x" = (DispatchOutcome.panics, []) ∧
    runJsHandlerLookup [("/y", ⟨none, 3⟩)] "/y" =
      (DispatchOutcome.panics, [("/y", ⟨none, 3⟩)]) := by
  exact ⟨rfl, rfl⟩

/-- Claim C3, amended: for every request dispatched to a path whose entry is
absent or whose entry has `func = none`, the handler fetch in `run_js_aux`
panics (it unwraps a `None`) instead of returning an error, and the
endpoint table is unaffected by dispatch. -/
theorem c3_amended_panics (hs : Handlers) (path : String) :
    ((AList.get? hs path = none ∨
        (∃ vh, AList.get? hs path = some vh ∧ vh.func = none)) →
      runJsHandlerLookup hs path = (DispatchOutcome.panics, hs)) ∧
    (runJsHandlerLookup hs path).2 = hs := by
  constructor
  · rintro (h | ⟨vh, hget, hfunc⟩)
    · simp [runJsHandlerLookup, h]
    · simp [runJsHandlerLookup, hget, hfunc]
  · unfold runJsHandlerLookup
    cases AList.get? hs path with
    | none => rfl
    | some vh =>
      obtain ⟨f, v⟩ := vh
      cases f <;> rfl

/-- Witness for `c3_amended_panics` at a concrete table. -/
theorem c3_amended_panics_witness :
    (AList.get? ([] : Handlers) "/x" = none ∨
      (∃ vh, AList.get? ([] : Handlers) "/x" = some vh ∧ vh.func = none)) ∧
    runJsHandlerLookup [] "/x" = (DispatchOutcome.panics, []) :=
  ⟨Or.inl rfl, (c3_amended_panics [] "/x").1 (Or.inl rfl)⟩

/-- `2 ^ 64`, the modulus of `u64` arithmetic. -/
def u64Mod : Nat := 18446744073709551616

theorem u64Mod_eq_pow : u64Mod = 2 ^ 64 := by norm_num [u64Mod]

/-- The version chosen by `define_endpoint_aux` (deno.rs lines 745-748):
`0` for a vacant entry, `prev_version + 1` for an occupied one. The
source computes `+ 1` on a `u64`, which in a release build wraps modulo
`2 ^ 64`. -/
def defineVersion (hs : Handlers) (path : String) : Nat :=
  match AList.get? hs path with
  | none => 0
  | some h => (h.version + 1) % u64Mod

/-- The reservation step of `define_endpoint_aux` (deno.rs lines 749-760):
the dummy entry `{ func: None, version }` is installed before the
module import starts. -/
def defineReserve (hs : Handlers) (path : String) : Handlers :=
  AList.set hs path ⟨none, defineVersion hs path⟩

/-- `define_endpoint_aux` (deno.rs lines 738-771). The module import
performed by `get_endpoint` runs in the v8 runtime; its outcome is the
`load` argument. The reservation is made first; only on a
successful import is `entry.func` set. The propagated `?` on failure leaves the
reserved entry in place. -/
def defineEndpointAux (hs : Handlers) (path : String)
    (load : Except String V8Function) : Handlers × Except String Unit :=
  let reserved := defineReserve hs path
  match load with
  | .error e => (reserved, .error e)
  | .ok f => (AList.set reserved path ⟨some f, defineVersion hs path⟩, .ok ())

/-- A process lifetime of `define_endpoint` calls (each item: the path and
the import outcome for that call), starting from handlers `hs`. -/
def runDefines (hs : Handlers) : List (String × Except String V8Function) → Handlers
  | [] => hs
  | (p, l) :: rest => runDefines (defineEndpointAux hs p l).1 rest

/-- The versions installed for path `q` over a trace, in order. -/
def observedVersions (hs : Handlers) :
    List (String × Except String V8Function) → String → List Nat
  | [], _ => []
  | (p, l) :: rest, q =>
    (if p = q then [defineVersion hs p] else []) ++
      observedVersions (defineEndpointAux hs p l).1 rest q

/-- How many times a trace defines path `q`. -/
def countDefines : List (String × Except String V8Function) → String → Nat
  | [], _ => 0
  | (p, _) :: rest, q => (if p = q then 1 else 0) + countDefines rest q

/-- The version currently recorded for `q`, as a 0/1-element list (used to
state the monotonicity invariant). -/
def storedVersion (hs : Handlers) (q : String) : List Nat :=
  match AList.get? hs q with
  | some h => [h.version]
  | none => []

theorem get_defineEndpointAux_ne (hs : Handlers) (p q : String)
    (l : Except String V8Function) (h : p ≠ q) :
    AList.get? (defineEndpointAux hs p l).1 q = AList.get? hs q := by
  cases l with
  | error e => simp [defineEndpointAux, defineReserve, AList.get_set_ne _ _ _ _ h]
  | ok f => simp [defineEndpointAux, defineReserve, AList.get_set_ne _ _ _ _ h]

theorem get_defineEndpointAux_self (hs : Handlers) (p : String)
    (l : Except String V8Function) :
    AList.get? (defineEndpointAux hs p l).1 p =
      some ⟨match l with | .error _ => none | .ok f => some f, defineVersion hs p⟩ := by
  cases l with
  | error e => simp [defineEndpointAux, defineReserve, AList.get_set_self]
  | ok f => simp [defineEndpointAux, defineReserve, AList.get_set_self]

/-- The version budget invariant: as long as the stored version plus the
number of remaining defines of `q` fits below `2 ^ 64`, no increment
wraps, so the stored and observed versions form a strictly increasing
chain. -/
theorem observedVersions_chain (trace : List (String × Except String V8Function)) :
    ∀ hs q,
      (∀ h, AList.get? hs q = some h → h.version + countDefines trace q < u64Mod) →
      (AList.get? hs q = none → countDefines trace q ≤ u64Mod) →
      List.Chain' (· < ·) (storedVersion hs q ++ observedVersions hs trace q) := by
  induction trace with
  | nil =>
    intro hs q _ _
    unfold storedVersion
    cases AList.get? hs q <;> simp [observedVersions]
  | cons step rest ih =>
    intro hs q hsome hnone
    obtain ⟨p, l⟩ := step
    by_cases hpq : p = q
    · subst hpq
      have hstored : storedVersion (defineEndpointAux hs p l).1 p =
          [defineVersion hs p] := by
        unfold storedVersion
        rw [get_defineEndpointAux_self]
      cases hget : AList.get? hs p with
      | none =>
        have hv : defineVersion hs p = 0 := by simp [defineVersion, hget]
        have hcnt := hnone hget
        simp [countDefines] at hcnt
        have hbound : defineVersion hs p + countDefines rest p < u64Mod := by
          rw [hv]
          omega
        have hrec := ih (defineEndpointAux hs p l).1 p
          (fun h₂ hh => by
            rw [get_defineEndpointAux_self] at hh
            cases Option.some.inj hh
            exact hbound)
          (fun hh => by
            rw [get_defineEndpointAux_self] at hh
            exact Option.noConfusion hh)
        rw [hstored] at hrec
        unfold observedVersions
        simp only [if_pos rfl]
        unfold storedVersion
        rw [hget]
        simpa using hrec
      | some h =>
        have hcnt := hsome h hget
        simp [countDefines] at hcnt
        have hlt : h.version + 1 < u64Mod := by omega
        have hveq : defineVersion hs p = h.version + 1 := by
          simp only [defineVersion, hget]
          exact Nat.mod_eq_of_lt hlt
        have hbound : defineVersion hs p + countDefines rest p < u64Mod := by
          rw [hveq]
          omega
        have hrec := ih (defineEndpointAux hs p l).1 p
          (fun h₂ hh => by
            rw [get_defineEndpointAux_self] at hh
            cases Option.some.inj hh
            exact hbound)
          (fun hh => by
            rw [get_defineEndpointAux_self] at hh
            exact Option.noConfusion hh)
        rw [hstored] at hrec
        unfold observedVersions
        simp only [if_pos rfl]
        unfold storedVersion
        rw [hget]
        simp only [List.singleton_append, List.cons_append, List.chain'_cons]
        constructor
        · rw [hveq]
          omega
        · simpa using hrec
    · have hcnt : countDefines ((p, l) :: rest) q = countDefines rest q := by
        simp [countDefines, hpq]
      have hstored : storedVersion (defineEndpointAux hs p l).1 q = storedVersion hs q := by
        unfold storedVersion
        rw [get_defineEndpointAux_ne _ _ _ _ hpq]
      have hrec := ih (defineEndpointAux hs p l).1 q
        (fun h₂ hh => by
          rw [get_defineEndpointAux_ne _ _ _ _ hpq] at hh
          have hb := hsome h₂ hh
          rw [hcnt] at hb
          exact hb)
        (fun hh => by
          rw [get_defineEndpointAux_ne _ _ _ _ hpq] at hh
          have hb := hnone hh
          rw [hcnt] at hb
          exact hb)
      rw [hstored] at hrec
      unfold observedVersions
      simpa [hpq] using hrec

/-- The observed versions of a run of failing redefinitions of `/p`,
starting from a table whose `/p` entry stores version `v`: each define
observes the wrapped successor of the previous version. -/
theorem observed_replicate_error (n : Nat) :
    ∀ (hs : Handlers) (v : Nat), AList.get? hs "/p" = some ⟨none, v⟩ →
      observedVersions hs (List.replicate n ("/p", Except.error "load failed")) "/p" =
        (List.range n).map (fun i => (v + 1 + i) % u64Mod) := by
  induction n with
  | zero => intro hs v _; rfl
  | succ m ih =>
    intro hs v hget
    rw [List.replicate_succ]
    unfold observedVersions
    simp only [if_pos rfl]
    have hv : defineVersion hs "/p" = (v + 1) % u64Mod := by
      simp [defineVersion, hget]
    have hget2 : AList.get? (defineEndpointAux hs "/p" (Except.error "load failed")).1 "/p" =
        some ⟨none, (v + 1) % u64Mod⟩ := by
      rw [get_defineEndpointAux_self, hv]
    have hrec := ih (defineEndpointAux hs "/p" (Except.error "load failed")).1
      ((v + 1) % u64Mod) hget2
    rw [hrec, hv, List.range_succ_eq_map, List.map_cons, List.map_map]
    have hfun : (fun i => ((v + 1) % u64Mod + 1 + i) % u64Mod) =
        (fun i => (v + 1 + i) % u64Mod) ∘ Nat.succ := by
      funext i
      simp only [Function.comp, Nat.succ_eq_add_one]
      rw [Nat.add_assoc ((v + 1) % u64Mod) 1 i, Nat.mod_add_mod, Nat.add_comm 1 i]
    rw [hfun]
    simp

/-- Claim C5, counterexample: the original claim's unconditional strict
monotonicity fails on the code's `u64` arithmetic. In the concrete trace
that defines `/p` once and then redefines it `2 ^ 64` more times (with
every import failing), the `u64` version wraps: the last two observed versions
are `2 ^ 64 - 1` and then `0`, so the observed sequence is not strictly
increasing. -/
theorem c5_counterexample :
    ¬ List.Chain' (· < ·) (observedVersions []
      (List.replicate (u64Mod + 1) ("/p", Except.error "load failed")) "/p") := by
  intro hch
  have hobs : observedVersions []
      (List.replicate (u64Mod + 1) ("/p", Except.error "load failed")) "/p" =
      0 :: (List.range u64Mod).map (fun i => (0 + 1 + i) % u64Mod) := by
    rw [List.replicate_succ]
    unfold observedVersions
    simp only [if_pos rfl]
    have hget2 : AList.get? (defineEndpointAux [] "/p" (Except.error "load failed")).1 "/p" =
        some ⟨none, 0⟩ := by
      rw [get_defineEndpointAux_self]
      rfl
    rw [observed_replicate_error u64Mod _ 0 hget2]
    simp [defineVersion, AList.get?]
  rw [hobs] at hch
  have hsplit : List.range u64Mod =
      (List.range 18446744073709551614 ++ [18446744073709551614]) ++
        [18446744073709551615] := by
    have h1 : u64Mod = 18446744073709551615 + 1 := by norm_num [u64Mod]
    rw [h1, List.range_succ]
    have h2 : (18446744073709551615 : Nat) = 18446744073709551614 + 1 := by norm_num
    rw [h2, List.range_succ]
  rw [hsplit] at hch
  simp only [List.map_append, List.map_cons, List.map_nil] at hch
  rw [List.append_assoc, ← List.cons_append] at hch
  have hpair := (List.chain'_append.mp hch).2.1
  simp only [List.singleton_append, List.chain'_cons, List.chain'_singleton,
    and_true] at hpair
  norm_num [u64Mod] at hpair

/-- Claim C5, amended: `define_endpoint_aux` picks version
`(prev + 1) mod 2 ^ 64` (`0` when the path is new), installs the reserved
`{ func: none, version }` entry before the module import, leaves exactly
that entry when the import fails, and over any process lifetime of
`define_endpoint` calls starting from the empty table the versions
observed for a path are strictly increasing as long as that path is
defined at most `2 ^ 64` times (beyond that the `u64` counter wraps). -/
theorem c5_versioning :
    (∀ hs p, AList.get? hs p = none → defineVersion hs p = 0) ∧
    (∀ hs p h, AList.get? hs p = some h →
      defineVersion hs p = (h.version + 1) % u64Mod) ∧
    (∀ hs p e, (defineEndpointAux hs p (.error e)).1 = defineReserve hs p ∧
      AList.get? (defineEndpointAux hs p (.error e)).1 p =
        some ⟨none, defineVersion hs p⟩) ∧
    (∀ trace q, countDefines trace q ≤ u64Mod →
      List.Chain' (· < ·) (observedVersions [] trace q)) := by
  refine ⟨?_, ?_, ?_, ?_⟩
  · intro hs p h
    simp [defineVersion, h]
  · intro hs p h hget
    simp [defineVersion, hget]
  · intro hs p e
    exact ⟨rfl, get_defineEndpointAux_self hs p (.error e)⟩
  · intro trace q hcnt
    have h := observedVersions_chain trace [] q
      (fun h₂ hh => by simp [AList.get?] at hh)
      (fun _ => hcnt)
    simp only [storedVersion, AList.get?, List.nil_append] at h
    exact h

/-- Witness for `c5_versioning`: a concrete occupied entry is redefined at
version `prev + 1`, a vacant path is defined at version `0`, and a
one-define trace is within the `2 ^ 64` budget and strictly increasing. -/
theorem c5_versioning_witness :
    (AList.get? ([("/hi", ⟨some ⟨7⟩, 4⟩)] : Handlers) "/hi" = some ⟨some ⟨7⟩, 4⟩ ∧
      defineVersion [("/hi", ⟨some ⟨7⟩, 4⟩)] "/hi" = 5) ∧
    (AList.get? ([] : Handlers) "/new" = none ∧ defineVersion [] "/new" = 0) ∧
    (countDefines [("/a", Except.error "load failed")] "/a" ≤ u64Mod ∧
      List.Chain' (· < ·)
        (observedVersions [] [("/a", Except.error "load failed")] "/a")) :=
  ⟨⟨rfl, c5_versioning.2.1 [("/hi", ⟨some ⟨7⟩, 4⟩)] "/hi" ⟨some ⟨7⟩, 4⟩ rfl⟩,
   ⟨rfl, c5_versioning.1 [] "/new" rfl⟩,
   ⟨by decide,
    c5_versioning.2.2.2 [("/a", Except.error "load failed")] "/a" (by decide)⟩⟩

/-! ## The row-stream host ops (deno.rs, `op_chisel_query_create` /
`op_chisel_query_next`) and field policies (policies.rs)

External collaborators appear as explicit function arguments:
`runtime.type_system.lookup_object_type`, `runtime.get_policies`, the
query engine's `find_all`/`find_all_by`, and
`crate::query::engine::row_to_json` live outside the studied sources.
An sqlx cursor is its yielded items: a list of `Result<AnyRow, Error>`. -/

/-- Opaque stand-in for `crate::types::ObjectType`. -/
structure ObjectType where
  name : String
deriving DecidableEq

/-- Opaque stand-in for `sqlx::any::AnyRow`. -/
structure AnyRow where
  cols : List (String × Value)

/-- `FieldPolicies` (policies.rs lines 29-35): per-field transformations
plus the names of fields that must equal the currently logged-in user.
deno.rs iterates the policies as `(field, xform)` pairs, i.e. it consumes
only the transformations. -/
structure FieldPolicies where
  transforms : List (String × (Value → Value))
  match_login : List String

/-- `QueryStreamResource` (deno.rs lines 249-254). -/
structure QueryStreamResource where
  stream : List (Except String AnyRow)
  policies : FieldPolicies
  ty : ObjectType

/-- The VM `OpState`: the resource table and the next resource id. -/
structure OpState where
  resources : List (Nat × QueryStreamResource)
  nextRid : Nat

/-- The VM thread's state visible to the ops: the `CURRENT_REQUEST_PATH`
thread-local (deno.rs lines 521-523) and the `OpState`. -/
structure ThreadState where
  currentPath : String
  opState : OpState

/-- `set_current_path` (deno.rs lines 525-530), acting on the op-visible
state. -/
def ThreadState.setPath (s : ThreadState) (p : String) : ThreadState :=
  { s with currentPath := p }

/-- The net effect of `v[field] = xform(v[field].take())` for one field
(deno.rs line 311), with serde_json index semantics: on an object the
field is replaced (inserted if missing, the missing value reads as
`Null`); indexing `Null` by a key auto-vivifies an object; indexing any
other value by a key panics, modelled as `none`. -/
def applyOne (v : Value) (field : String) (xform : Value → Value) : Option Value :=
  match v with
  | .obj fs => some (.obj (AList.set fs field (xform ((AList.get? fs field).getD .null))))
  | .null => some (.obj [(field, xform .null)])
  | _ => none

/-- The policy loop of `op_chisel_query_next` (deno.rs lines 310-312):
`for (field, xform) in &resource.policies { v[field] = xform(v[field].take()) }`. -/
def applyTransforms : List (String × (Value → Value)) → Value → Option Value
  | [], v => some v
  | (field, xform) :: rest, v =>
    match applyOne v field xform with
    | none => none
    | some v₁ => applyTransforms rest v₁

/-- The `field_name` extraction of `op_chisel_query_create` (deno.rs lines
267-274): absent means `None`; present but not a string is an error. -/
def fieldNameOf (content : Value) : Except String (Option String) :=
  match content.getOpt "field_name" with
  | none => .ok none
  | some v =>
    match v.asStr with
    | none => .error "field field_name should be of type string"
    | some f => .ok (some f)

/-- `op_chisel_query_create` (deno.rs lines 258-296).
`gp` is `runtime.get_policies` (the policies for a type at a request
path), `lt` is `type_system.lookup_object_type`, and `eng` produces the
rows of `query_engine.find_all` / `find_all_by` (the second argument is
`Some (field_name, content["value"])` exactly when a `field_name` was
supplied). The `FieldPolicies` are computed from the
`CURRENT_REQUEST_PATH` thread-local and stored into the resource. -/
def op_chisel_query_create
    (gp : ObjectType → String → FieldPolicies)
    (lt : String → Except String ObjectType)
    (eng : ObjectType → Option (String × Value) → Except String (List (Except String AnyRow)))
    (s : ThreadState) (content : Value) : Except String (Nat × ThreadState) :=
  match (content.getKey "type_name").asStr with
  | none => .error "field type_name should be of type string"
  | some type_name =>
    match fieldNameOf content with
    | .error e => .error e
    | .ok fieldName =>
      match lt type_name with
      | .error e => .error e
      | .ok ty =>
        let policies := gp ty s.currentPath
        let spec :=
          match fieldName with
          | none => none
          | some f => some (f, content.getKey "value")
        match eng ty spec with
        | .error e => .error e
        | .ok rows =>
          let rid := s.opState.nextRid
          .ok (rid, { s with
            opState := ⟨s.opState.resources ++ [(rid, ⟨rows, policies, ty⟩)], rid + 1⟩ })

/-- Result of one `op_chisel_query_next` call. `panic` models the
`row.unwrap()` on a cursor error (deno.rs line 308) and the serde index
panic; `errRid` the failed resource-table lookup; `errJson` the `?` on
`row_to_json`; `ok` the returned `Option<serde_json::Value>`. -/
inductive NextResult where
  | panic
  | errRid
  | errJson (e : String)
  | ok (v : Option Value)

/-- The `RefCell` advance of a resource's stream: the resource table with
the entry at `rid` holding the remaining rows. -/
def ThreadState.advance (s : ThreadState) (rid : Nat) (res : QueryStreamResource)
    (rest : List (Except String AnyRow)) : ThreadState :=
  ⟨s.currentPath, ⟨AList.set s.opState.resources rid ⟨rest, res.policies, res.ty⟩,
    s.opState.nextRid⟩⟩

/-- `op_chisel_query_next` (deno.rs lines 298-317), with
`rtj = crate::query::engine::row_to_json`. The cursor item is consumed
before it is inspected, so the stream advances in every non-empty case. -/
def op_chisel_query_next (rtj : ObjectType → AnyRow → Except String Value)
    (s : ThreadState) (rid : Nat) : NextResult × ThreadState :=
  match AList.get? s.opState.resources rid with
  | none => (.errRid, s)
  | some res =>
    match res.stream with
    | [] => (.ok none, s)
    | .error _ :: rest => (.panic, s.advance rid res rest)
    | .ok row :: rest =>
      let s₁ : ThreadState := s.advance rid res rest
      match rtj res.ty row with
      | .error e => (.errJson e, s₁)
      | .ok v =>
        match applyTransforms res.policies.transforms v with
        | none => (.panic, s₁)
        | some v₁ => (.ok (some v₁), s₁)

/-- `n` successive `op_chisel_query_next` calls on the same resource,
collecting the results. -/
def queryNextCalls (rtj : ObjectType → AnyRow → Except String Value) (rid : Nat) :
    Nat → ThreadState → List NextResult × ThreadState
  | 0, s => ([], s)
  | n + 1, s =>
    let r := op_chisel_query_next rtj s rid
    let rs := queryNextCalls rtj rid n r.2
    (r.1 :: rs.1, rs.2)

/-- A concrete `row_to_json` used by witnesses: the row's columns as a JSON
object. -/
def rtjCols : ObjectType → AnyRow → Except String Value :=
  fun _ r => .ok (.obj r.cols)

/-- A concrete op state whose only row stream yields a cursor error. -/
def stErr4 : ThreadState :=
  ⟨"/p", ⟨[(1, ⟨[.error "db failure"], ⟨[], []⟩, ⟨"User"⟩⟩)], 2⟩⟩

/-- Claim C4, counterexample: when the cursor yields an error,
`op_chisel_query_next` does not return that error as a failure — it
`unwrap()`s the row (deno.rs line 308) and panics. -/
theorem c4_counterexample :
    (op_chisel_query_next rtjCols stErr4 1).1 = NextResult.panic ∧
    NextResult.panic ≠ NextResult.errJson "db failure" :=
  ⟨rfl, fun h => NextResult.noConfusion h⟩

/-- Claim C4, amended: a cursor error makes `op_chisel_query_next` panic
(via `row.unwrap()`) rather than returning the error as a failure; once
the cursor is exhausted, the call returns `none` and leaves the state
unchanged, so every subsequent call also returns `none`. -/
theorem c4_amended_cursor (rtj : ObjectType → AnyRow → Except String Value)
    (s : ThreadState) (rid : Nat) (res : QueryStreamResource)
    (hget : AList.get? s.opState.resources rid = some res) :
    (res.stream = [] →
      op_chisel_query_next rtj s rid = (NextResult.ok none, s) ∧
      ∀ n, (queryNextCalls rtj rid n s).1 = List.replicate n (NextResult.ok none)) ∧
    (∀ e rest, res.stream = .error e :: rest →
      (op_chisel_query_next rtj s rid).1 = NextResult.panic) := by
  constructor
  · intro hempty
    have hone : op_chisel_query_next rtj s rid = (NextResult.ok none, s) := by
      simp [op_chisel_query_next, hget, hempty]
    refine ⟨hone, ?_⟩
    intro n
    induction n with
    | zero => rfl
    | succ n ih => simp [queryNextCalls, hone, ih, List.replicate_succ]
  · intro e rest hstream
    simp [op_chisel_query_next, hget, hstream]

/-- Witness for `c4_amended_cursor`: an exhausted stream yields `none` three
times in a row; an erroring stream panics. -/
theorem c4_amended_cursor_witness :
    (AList.get? (⟨"/p", ⟨[(0, ⟨[], ⟨[], []⟩, ⟨"User"⟩⟩)], 1⟩⟩ : ThreadState).opState.resources 0 =
      some ⟨[], ⟨[], []⟩, ⟨"User"⟩⟩) ∧
    (queryNextCalls rtjCols 0 3 ⟨"/p", ⟨[(0, ⟨[], ⟨[], []⟩, ⟨"User"⟩⟩)], 1⟩⟩).1 =
      [NextResult.ok none, NextResult.ok none, NextResult.ok none] ∧
    (op_chisel_query_next rtjCols stErr4 1).1 = NextResult.panic :=
  ⟨rfl,
   ((c4_amended_cursor rtjCols ⟨"/p", ⟨[(0, ⟨[], ⟨[], []⟩, ⟨"User"⟩⟩)], 1⟩⟩ 0
      ⟨[], ⟨[], []⟩, ⟨"User"⟩⟩ rfl).1 rfl).2 3,
   (c4_amended_cursor rtjCols stErr4 1 ⟨[.error "db failure"], ⟨[], []⟩, ⟨"User"⟩⟩ rfl).2
     "db failure" [] rfl⟩

/-- A concrete op state whose only row stream yields one row whose `owner`
column differs from any plausibly logged-in user; the policies mark
`owner` as a `match_login` field. -/
def stMl2 : ThreadState :=
  ⟨"/users", ⟨[(3, ⟨[.ok ⟨[("owner", .str "bob")]⟩], ⟨[], ["owner"]⟩, ⟨"Person"⟩⟩)], 4⟩⟩

/-- Claim C2, counterexample: the resource's policies carry
`match_login = ["owner"]`, the row's `owner` is `"bob"`, and whoever is
logged in (say `"alice"` — `op_chisel_query_next` consults no user at
all), the row is returned rather than skipped: the op only applies the
`(field, xform)` transforms (deno.rs lines 310-312) and performs no
login comparison. -/
theorem c2_counterexample :
    (op_chisel_query_next rtjCols stMl2 3).1 =
      NextResult.ok (some (Value.obj [("owner", Value.str "bob")])) ∧
    (AList.get? stMl2.opState.resources 3).map (fun r => r.policies.match_login) =
      some ["owner"] ∧
    "bob" ≠ "alice" :=
  ⟨rfl, rfl, by decide⟩

/-- Claim C2, amended: `op_chisel_query_next` never skips a row and never
consults the logged-in user: its result is invariant under arbitrary
changes to the `match_login` field names, and every row the cursor yields
(that converts to JSON) is returned after applying the `(field, xform)`
transforms. -/
theorem c2_amended_no_skip (rtj : ObjectType → AnyRow → Except String Value)
    (p : String) (rid : Nat) (stream : List (Except String AnyRow))
    (tfs : List (String × (Value → Value))) (ml ml₂ : List String) (ty : ObjectType) :
    (op_chisel_query_next rtj ⟨p, ⟨[(rid, ⟨stream, ⟨tfs, ml⟩, ty⟩)], rid + 1⟩⟩ rid).1 =
      (op_chisel_query_next rtj ⟨p, ⟨[(rid, ⟨stream, ⟨tfs, ml₂⟩, ty⟩)], rid + 1⟩⟩ rid).1 ∧
    (∀ row rest v v₁, stream = .ok row :: rest → rtj ty row = .ok v →
      applyTransforms tfs v = some v₁ →
      (op_chisel_query_next rtj ⟨p, ⟨[(rid, ⟨stream, ⟨tfs, ml⟩, ty⟩)], rid + 1⟩⟩ rid).1 =
        NextResult.ok (some v₁)) := by
  constructor
  · cases stream with
    | nil => simp [op_chisel_query_next, AList.get?]
    | cons hd rest =>
      cases hd with
      | error e => simp [op_chisel_query_next, AList.get?]
      | ok row =>
        cases hr : rtj ty row with
        | error e => simp [op_chisel_query_next, AList.get?, hr]
        | ok v =>
          cases ha : applyTransforms tfs v with
          | none => simp [op_chisel_query_next, AList.get?, hr, ha]
          | some v₁ => simp [op_chisel_query_next, AList.get?, hr, ha]
  · intro row rest v v₁ hs hr ha
    subst hs
    simp [op_chisel_query_next, AList.get?, hr, ha]

/-- Witness for `c2_amended_no_skip`: a concrete row with a mismatching
`match_login` field is returned unchanged. -/
theorem c2_amended_no_skip_witness :
    (op_chisel_query_next rtjCols
      ⟨"/q", ⟨[(0, ⟨[.ok ⟨[("owner", Value.str "bob")]⟩], ⟨[], ["owner"]⟩, ⟨"Person"⟩⟩)], 1⟩⟩
      0).1 = NextResult.ok (some (Value.obj [("owner", Value.str "bob")])) :=
  (c2_amended_no_skip rtjCols "/q" 0 [.ok ⟨[("owner", Value.str "bob")]⟩] [] ["owner"] []
    ⟨"Person"⟩).2 ⟨[("owner", Value.str "bob")]⟩ [] (Value.obj [("owner", Value.str "bob")])
    (Value.obj [("owner", Value.str "bob")]) rfl rfl rfl

theorem AList.get_append_fresh {κ α : Type} [DecidableEq κ] (l : List (κ × α)) (k : κ) (v : α)
    (h : AList.get? l k = none) : AList.get? (l ++ [(k, v)]) k = some v := by
  induction l with
  | nil => simp [AList.get?]
  | cons hd t ih =>
    by_cases hk : hd.1 = k
    · simp [AList.get?, hk] at h
    · simp only [AList.get?, hk, if_false, List.cons_append]
      exact ih (by simpa [AList.get?, hk] using h)

theorem getKey_obj (fs : List (String × Value)) (k : String) :
    Value.getKey (.obj fs) k = (AList.get? fs k).getD .null := by
  cases h : AList.get? fs k <;> simp [Value.getKey, h]

/-- Applying the policy loop to a JSON object never panics and yields a
JSON object. -/
theorem applyTransforms_obj (tfs : List (String × (Value → Value))) :
    ∀ fs, ∃ fs₂, applyTransforms tfs (.obj fs) = some (.obj fs₂) := by
  induction tfs with
  | nil => intro fs; exact ⟨fs, rfl⟩
  | cons hd rest ih =>
    intro fs
    obtain ⟨k, f⟩ := hd
    simpa [applyTransforms, applyOne] using ih (AList.set fs k (f ((AList.get? fs k).getD .null)))

/-- Fields not named by any `(field, xform)` pair are left unchanged by the
policy loop. -/
theorem applyTransforms_getKey_notMem (tfs : List (String × (Value → Value))) :
    ∀ fs k, k ∉ tfs.map Prod.fst →
      ∀ w, applyTransforms tfs (.obj fs) = some w → w.getKey k = Value.getKey (.obj fs) k := by
  induction tfs with
  | nil =>
    intro fs k _ w hw
    cases hw
    rfl
  | cons hd rest ih =>
    intro fs k hk w hw
    obtain ⟨k₁, f₁⟩ := hd
    simp only [List.map_cons, List.mem_cons, not_or] at hk
    obtain ⟨hne, hk⟩ := hk
    simp only [applyTransforms, applyOne] at hw
    have := ih (AList.set fs k₁ (f₁ ((AList.get? fs k₁).getD .null))) k hk w hw
    rw [this, getKey_obj, getKey_obj, AList.get_set_ne _ _ _ _ (Ne.symm hne)]

/-- Each `(field, xform)` pair of the policy loop replaces exactly its own
field: after the loop, `row[field] = xform(row[field])` (with distinct
policy fields, as produced by the `HashMap` in `FieldPolicies`). -/
theorem applyTransforms_getKey (tfs : List (String × (Value → Value))) :
    ∀ fs k f, (tfs.map Prod.fst).Nodup → (k, f) ∈ tfs →
      ∃ w, applyTransforms tfs (.obj fs) = some w ∧
        w.getKey k = f (Value.getKey (.obj fs) k) := by
  induction tfs with
  | nil => intro fs k f _ hmem; cases hmem
  | cons hd rest ih =>
    intro fs k f hnd hmem
    obtain ⟨k₁, f₁⟩ := hd
    simp only [List.map_cons, List.nodup_cons] at hnd
    obtain ⟨hk₁, hnd⟩ := hnd
    rcases List.mem_cons.mp hmem with heq | hmem₂
    · obtain ⟨rfl, rfl⟩ := Prod.mk.injEq .. ▸ heq
      obtain ⟨fs₂, hfs₂⟩ :=
        applyTransforms_obj rest (AList.set fs k (f ((AList.get? fs k).getD .null)))
      refine ⟨.obj fs₂, by simpa [applyTransforms, applyOne] using hfs₂, ?_⟩
      have hpres := applyTransforms_getKey_notMem rest
        (AList.set fs k (f ((AList.get? fs k).getD .null))) k hk₁ (.obj fs₂) hfs₂
      rw [hpres, getKey_obj, getKey_obj, AList.get_set_self]
      rfl
    · have hkmem : k ∈ rest.map Prod.fst :=
        List.mem_map.mpr ⟨(k, f), hmem₂, rfl⟩
      have hne : k₁ ≠ k := fun h => hk₁ (h ▸ hkmem)
      obtain ⟨w, hw, hwk⟩ :=
        ih (AList.set fs k₁ (f₁ ((AList.get? fs k₁).getD .null))) k f hnd hmem₂
      refine ⟨w, by simpa [applyTransforms, applyOne] using hw, ?_⟩
      rw [hwk, getKey_obj, getKey_obj, AList.get_set_ne _ _ _ _ hne]

/-- The first component of `op_chisel_query_next` is independent of the
`CURRENT_REQUEST_PATH` thread-local: the op reads only the resource. -/
theorem queryNext_fst_setPath (rtj : ObjectType → AnyRow → Except String Value)
    (s : ThreadState) (rid : Nat) (p₂ : String) :
    (op_chisel_query_next rtj (s.setPath p₂) rid).1 =
      (op_chisel_query_next rtj s rid).1 := by
  unfold op_chisel_query_next ThreadState.setPath
  cases hget : AList.get? s.opState.resources rid with
  | none => rfl
  | some res =>
    obtain ⟨rows, pol, ty⟩ := res
    cases rows with
    | nil => rfl
    | cons hd rest =>
      cases hd with
      | error e => rfl
      | ok row =>
        dsimp only
        split <;> try rfl
        split <;> rfl

/-- Claim C6: on a successful `op_chisel_query_create`, the `FieldPolicies`
looked up for the request path current at creation time (`gp ty
s.currentPath`) are stored inside the new row-stream resource; any later
`op_chisel_query_next` is insensitive to changes of the
`CURRENT_REQUEST_PATH` thread-local, converts the next row to JSON with
the stored entity type descriptor and applies exactly the captured
`(field, xform)` pairs, each pair replacing `row[field]` with
`xform(row[field])`. -/
theorem c6_policy_capture
    (gp : ObjectType → String → FieldPolicies)
    (lt : String → Except String ObjectType)
    (eng : ObjectType → Option (String × Value) → Except String (List (Except String AnyRow)))
    (rtj : ObjectType → AnyRow → Except String Value)
    (s : ThreadState) (content : Value) (rid : Nat) (s₁ : ThreadState)
    (hfresh : AList.get? s.opState.resources s.opState.nextRid = none)
    (h : op_chisel_query_create gp lt eng s content = .ok (rid, s₁)) :
    ∃ ty rows,
      AList.get? s₁.opState.resources rid = some ⟨rows, gp ty s.currentPath, ty⟩ ∧
      (∀ p₂, (op_chisel_query_next rtj (s₁.setPath p₂) rid).1 =
        (op_chisel_query_next rtj s₁ rid).1) ∧
      (∀ p₂ row rest v v₁, rows = .ok row :: rest → rtj ty row = .ok v →
        applyTransforms (gp ty s.currentPath).transforms v = some v₁ →
        (op_chisel_query_next rtj (s₁.setPath p₂) rid).1 = NextResult.ok (some v₁)) ∧
      (∀ fs k f, ((gp ty s.currentPath).transforms.map Prod.fst).Nodup →
        (k, f) ∈ (gp ty s.currentPath).transforms →
        ∃ w, applyTransforms (gp ty s.currentPath).transforms (Value.obj fs) = some w ∧
          w.getKey k = f (Value.getKey (Value.obj fs) k)) := by
  unfold op_chisel_query_create at h
  cases hts : (content.getKey "type_name").asStr with
  | none => rw [hts] at h; exact absurd h (by simp)
  | some type_name =>
    rw [hts] at h
    dsimp only at h
    cases hfr : fieldNameOf content with
    | error e => rw [hfr] at h; exact absurd h (by simp)
    | ok fieldName =>
      rw [hfr] at h
      dsimp only at h
      cases hlt : lt type_name with
      | error e => rw [hlt] at h; exact absurd h (by simp)
      | ok ty =>
        rw [hlt] at h
        dsimp only at h
        revert h
        generalize (match fieldName with
          | none => none
          | some f => some (f, content.getKey "value")) = qspec
        intro h
        cases heng : eng ty qspec with
        | error e => rw [heng] at h; exact absurd h (by simp)
        | ok rows =>
          rw [heng] at h
          dsimp only at h
          have hinj := Except.ok.inj h
          obtain ⟨hrid, hs₁⟩ := Prod.mk.injEq .. ▸ hinj
          refine ⟨ty, rows, ?_, ?_, ?_, ?_⟩
          · rw [← hs₁, ← hrid]
            exact AList.get_append_fresh _ _ _ hfresh
          · intro p₂
            exact queryNext_fst_setPath rtj s₁ rid p₂
          · intro p₂ row rest v v₁ hrows hr ha
            rw [queryNext_fst_setPath]
            have hres : AList.get? s₁.opState.resources rid =
                some ⟨rows, gp ty s.currentPath, ty⟩ := by
              rw [← hs₁, ← hrid]
              exact AList.get_append_fresh _ _ _ hfresh
            subst hrows
            simp [op_chisel_query_next, hres, hr, ha]
          · intro fs k f hnd hmem
            exact applyTransforms_getKey _ fs k f hnd hmem

/-- Witness for `c6_policy_capture`: a concrete `query_create` whose
captured policy anonymizes `email`; the first row is returned with
`email` transformed although the current path has moved on. -/
theorem c6_policy_capture_witness :
    (AList.get? (⟨"/users", ⟨[], 0⟩⟩ : ThreadState).opState.resources 0 = none) ∧
    (op_chisel_query_create
      (fun _ p => ⟨if p = "/users" then [("email", fun _ => Value.str "xxxxx")] else [], []⟩)
      (fun n => .ok ⟨n⟩)
      (fun _ _ => .ok [.ok ⟨[("email", Value.str "bob at example.com")]⟩])
      ⟨"/users", ⟨[], 0⟩⟩ (.obj [("type_name", .str "User")]) =
      .ok (0, ⟨"/users", ⟨[(0, ⟨[.ok ⟨[("email", Value.str "bob at example.com")]⟩],
        ⟨[("email", fun _ => Value.str "xxxxx")], []⟩, ⟨"User"⟩⟩)], 1⟩⟩)) ∧
    (∃ ty rows,
      AList.get? (⟨"/users", ⟨[(0, ⟨[.ok ⟨[("email", Value.str "bob at example.com")]⟩],
          ⟨[("email", fun _ => Value.str "xxxxx")], []⟩, ⟨"User"⟩⟩)], 1⟩⟩ :
          ThreadState).opState.resources 0 =
        some ⟨rows,
          (fun (_ : ObjectType) p =>
            (⟨if p = "/users" then [("email", fun _ => Value.str "xxxxx")] else [],
              []⟩ : FieldPolicies)) ty "/users", ty⟩ ∧
      (∀ p₂, (op_chisel_query_next rtjCols
          ((⟨"/users", ⟨[(0, ⟨[.ok ⟨[("email", Value.str "bob at example.com")]⟩],
            ⟨[("email", fun _ => Value.str "xxxxx")], []⟩, ⟨"User"⟩⟩)], 1⟩⟩ :
            ThreadState).setPath p₂) 0).1 =
        (op_chisel_query_next rtjCols
          (⟨"/users", ⟨[(0, ⟨[.ok ⟨[("email", Value.str "bob at example.com")]⟩],
            ⟨[("email", fun _ => Value.str "xxxxx")], []⟩, ⟨"User"⟩⟩)], 1⟩⟩ :
            ThreadState) 0).1) ∧
      (∀ p₂ row rest v v₁, rows = .ok row :: rest → rtjCols ty row = .ok v →
        applyTransforms [("email", fun _ => Value.str "xxxxx")] v = some v₁ →
        (op_chisel_query_next rtjCols
          ((⟨"/users", ⟨[(0, ⟨[.ok ⟨[("email", Value.str "bob at example.com")]⟩],
            ⟨[("email", fun _ => Value.str "xxxxx")], []⟩, ⟨"User"⟩⟩)], 1⟩⟩ :
            ThreadState).setPath p₂) 0).1 = NextResult.ok (some v₁)) ∧
      (∀ fs k f, (([("email", fun _ => Value.str "xxxxx")].map
          (Prod.fst (α := String) (β := Value → Value))).Nodup) →
        (k, f) ∈ [("email", fun (_ : Value) => Value.str "xxxxx")] →
        ∃ w, applyTransforms [("email", fun _ => Value.str "xxxxx")] (Value.obj fs) = some w ∧
          w.getKey k = f (Value.getKey (Value.obj fs) k))) := by
  refine ⟨rfl, rfl, ?_⟩
  have h := c6_policy_capture
    (fun _ p => ⟨if p = "/users" then [("email", fun _ => Value.str "xxxxx")] else [], []⟩)
    (fun n => .ok ⟨n⟩)
    (fun _ _ => .ok [.ok ⟨[("email", Value.str "bob at example.com")]⟩])
    rtjCols
    ⟨"/users", ⟨[], 0⟩⟩ (.obj [("type_name", .str "User")]) 0
    ⟨"/users", ⟨[(0, ⟨[.ok ⟨[("email", Value.str "bob at example.com")]⟩],
      ⟨[("email", fun _ => Value.str "xxxxx")], []⟩, ⟨"User"⟩⟩)], 1⟩⟩
    rfl rfl
  simpa using h

/-! ## Claim C7 — the query-expression rewriter (chiselc/src/rewrite.rs)

The `crate::query` expression types (`Expr`, `BinaryExpr`, `BinaryOp`,
`PropertyAccessExpr`, `Literal`, `Filter`, `Operator`) are declared
outside the studied sources but are fully determined by their pattern
matches in rewrite.rs; they are transcribed from that usage. The target
swc AST is modelled by the fragment rewrite.rs constructs and inspects:
object literals with identifier keys, string/bool/number literals,
member expressions and call expressions. `f64` literal payloads are
carried as `Int`; the rewriter moves them around without arithmetic. -/

inductive QBinaryOp where
  | and
  | eq
  | gt
  | gtEq
  | lt
  | ltEq
  | notEq
  | or
deriving DecidableEq

inductive QLiteral where
  | bool (v : Bool)
  | str (s : String)
  | num (n : Int)
deriving DecidableEq

inductive QExpr where
  | binaryExpr (left : QExpr) (op : QBinaryOp) (right : QExpr)
  | propertyAccess (object : QExpr) (property : String)
  | identifier (ident : String)
  | lit (l : QLiteral)
deriving DecidableEq

/-- `Filter` from `crate::query` (named `QFilter` here to avoid the
Mathlib name): the lowered predicate and the lambda's parameter names,
in order. -/
structure QFilter where
  predicate : QExpr
  parameters : List String
deriving DecidableEq

/-- `Operator` from `crate::query`; only the `Filter` arm is handled by
`to_ts_expr`, all other arms hit `todo!()`. -/
inductive Operator where
  | filter (f : QFilter)
  | other
deriving DecidableEq

inductive JsLit where
  | bool (b : Bool)
  | str (s : String)
  | num (n : Int)
deriving DecidableEq

/-- `MemberProp`: an identifier property or any other (computed/private)
property, which the rewriter never produces. -/
inductive MemberProp where
  | ident (s : String)
  | otherProp
deriving DecidableEq

/-- The swc expression fragment built and inspected by the rewriter.
Object literals are key-value props with identifier keys, in source
order. -/
inductive JsExpr where
  | lit (l : JsLit)
  | object (props : List (String × JsExpr))
  | member (obj : JsExpr) (prop : MemberProp)
  | jsIdent (s : String)

/-- `Callee`. -/
inductive Callee where
  | superCallee
  | importCallee
  | expr (e : JsExpr)

/-- `ExprOrSpread`: `spread = true` models `Some(span)`. The appended
expression argument is built with `spread: None`. -/
structure ExprOrSpread where
  spread : Bool
  expr : JsExpr

/-- `CallExpr` (callee and arguments; span/type args carry no content
here). -/
structure CallExpr where
  callee : Callee
  args : List ExprOrSpread

/-- `make_str_lit` (rewrite.rs lines 486-492). -/
def make_str_lit (s : String) : JsExpr := .lit (.str s)

/-- `make_bool_lit` (rewrite.rs lines 482-484). -/
def make_bool_lit (b : Bool) : JsExpr := .lit (.bool b)

/-- `make_num_lit` (rewrite.rs lines 494-500). -/
def make_num_lit (n : Int) : JsExpr := .lit (.num n)

/-- `make_expr_type` (rewrite.rs lines 471-480): the
`exprType: "…"` discriminant prop. -/
def make_expr_type (t : String) : String × JsExpr := ("exprType", make_str_lit t)

/-- `binary_op_to_ts` (rewrite.rs lines 368-380). -/
def binary_op_to_ts : QBinaryOp → JsExpr
  | .and => make_str_lit "And"
  | .eq => make_str_lit "Eq"
  | .gt => make_str_lit "Gt"
  | .gtEq => make_str_lit "GtEq"
  | .lt => make_str_lit "Lt"
  | .ltEq => make_str_lit "LtEq"
  | .notEq => make_str_lit "NotEq"
  | .or => make_str_lit "Or"

/-- `Iterator::position` over the parameter list, as used by
`identifier_to_ts` (rewrite.rs line 412). -/
def position (target : String) : List String → Option Nat
  | [] => none
  | x :: xs => if x = target then some 0 else Option.map (· + 1) (position target xs)

/-- `identifier_to_ts` (rewrite.rs lines 410-436): an identifier that names
a lambda parameter becomes a `Parameter` node carrying its position; any
other identifier becomes an `Identifier` node. -/
def identifier_to_ts (ident : String) (params : List String) : JsExpr :=
  match position ident params with
  | some pos => .object [make_expr_type "Parameter", ("position", make_num_lit pos)]
  | none => .object [make_expr_type "Identifier", ("ident", make_str_lit ident)]

/-- `literal_to_ts` (rewrite.rs lines 438-455). -/
def literal_to_ts : QLiteral → JsExpr
  | .bool v => .object [make_expr_type "Literal", ("value", make_bool_lit v)]
  | .str s => .object [make_expr_type "Literal", ("value", make_str_lit s)]
  | .num n => .object [make_expr_type "Literal", ("value", make_num_lit n)]

/-- `expr_to_ts` together with `binary_expr_to_ts` and
`property_access_to_ts` (rewrite.rs lines 322-408); prop order as pushed
by the source: `exprType`, then `left`/`op`/`right`, or
`object`/`property`. -/
def expr_to_ts : QExpr → List String → JsExpr
  | .binaryExpr l op r, params =>
    .object [make_expr_type "Binary", ("left", expr_to_ts l params),
      ("op", binary_op_to_ts op), ("right", expr_to_ts r params)]
  | .propertyAccess o p, params =>
    .object [make_expr_type "Property", ("object", expr_to_ts o params),
      ("property", make_str_lit p)]
  | .identifier id, params => identifier_to_ts id params
  | .lit l, _ => literal_to_ts l

/-- `filter_to_ts` (rewrite.rs lines 318-320). -/
def filter_to_ts (f : QFilter) : JsExpr :=
  expr_to_ts f.predicate f.parameters

/-- `rewrite_filter_callee` (rewrite.rs lines 295-316): the member
property of the callee is replaced with `__filterWithExpression`; any
non-member callee hits `todo!()`, modelled as `none`. -/
def rewrite_filter_callee : Callee → Option Callee
  | .expr (.member obj _) => some (.expr (.member obj (.ident "__filterWithExpression")))
  | _ => none

/-- `to_ts_expr` (rewrite.rs lines 270-292): rewrite the callee, then
clone the original arguments and push the serialised expression tree as
one extra non-spread argument. Non-`Filter` operators hit `todo!()`. -/
def to_ts_expr (call : CallExpr) (op : Operator) : Option CallExpr :=
  match op with
  | .filter f =>
    match rewrite_filter_callee call.callee with
    | none => none
    | some callee => some ⟨callee, call.args ++ [⟨false, filter_to_ts f⟩]⟩
  | .other => none

/-- Modelled from the spec: the predicate lowering in
`chiselc/src/transforms/filter.rs` (`infer_filter`) is not among the
studied sources; per §4.9 of the spec the recognised JS binary operators
map `==→Eq`, `!=→NotEq`, `<→Lt`, `<=→LtEq`, `>→Gt`, `>=→GtEq`, `&&→And`,
`||→Or`. -/
inductive JsBinOp where
  | eqeq
  | noteq
  | ltOp
  | lteq
  | gtOp
  | gteq
  | andand
  | oror
deriving DecidableEq

/-- Modelled from the spec: the operator table of the lowering pass. -/
def lowerBinOp : JsBinOp → QBinaryOp
  | .eqeq => .eq
  | .noteq => .notEq
  | .ltOp => .lt
  | .lteq => .ltEq
  | .gtOp => .gt
  | .gteq => .gtEq
  | .andand => .and
  | .oror => .or

theorem position_get_of_nodup (params : List String) :
    ∀ i (h : i < params.length), params.Nodup →
      position (params.get ⟨i, h⟩) params = some i := by
  induction params with
  | nil => intro i h; exact absurd h (by simp)
  | cons p rest ih =>
    intro i h hnd
    rw [List.nodup_cons] at hnd
    obtain ⟨hp, hnd⟩ := hnd
    cases i with
    | zero => simp [position]
    | succ j =>
      have hj : j < rest.length := Nat.lt_of_succ_lt_succ h
      have hne : p ≠ rest.get ⟨j, hj⟩ := by
        intro heq
        exact hp (heq ▸ List.get_mem rest j hj)
      simp only [List.get_cons_succ, position, if_neg hne, ih j hj hnd]
      rfl

theorem position_eq_none_of_notMem (target : String) :
    ∀ params : List String, target ∉ params → position target params = none := by
  intro params hmem
  induction params with
  | nil => rfl
  | cons p rest ih =>
    simp only [List.mem_cons, not_or] at hmem
    simp only [position, if_neg (Ne.symm hmem.1), ih hmem.2]
    rfl

/-- Claim C7: on a call recognised as a lowerable entity-collection filter,
`to_ts_expr` replaces only the callee member property (with
`__filterWithExpression`), keeps the original arguments and appends
exactly one non-spread argument — the serialised tree; the serialisation
gives every node a string `exprType` discriminant drawn from
`Binary | Property | Identifier | Parameter | Literal`; the eight spec
operators serialise (through the lowering table) to
`Eq | NotEq | Lt | LtEq | Gt | GtEq | And | Or`; an identifier naming the
lambda's `i`-th parameter becomes a `Parameter` node with `position = i`,
and any other identifier becomes an `Identifier` node. -/
theorem c7_rewrite_shape :
    (∀ obj prop args f,
      to_ts_expr ⟨Callee.expr (.member obj prop), args⟩ (.filter f) =
        some ⟨Callee.expr (.member obj (.ident "__filterWithExpression")),
          args ++ [⟨false, expr_to_ts f.predicate f.parameters⟩]⟩) ∧
    (binary_op_to_ts (lowerBinOp .eqeq) = make_str_lit "Eq" ∧
     binary_op_to_ts (lowerBinOp .noteq) = make_str_lit "NotEq" ∧
     binary_op_to_ts (lowerBinOp .ltOp) = make_str_lit "Lt" ∧
     binary_op_to_ts (lowerBinOp .lteq) = make_str_lit "LtEq" ∧
     binary_op_to_ts (lowerBinOp .gtOp) = make_str_lit "Gt" ∧
     binary_op_to_ts (lowerBinOp .gteq) = make_str_lit "GtEq" ∧
     binary_op_to_ts (lowerBinOp .andand) = make_str_lit "And" ∧
     binary_op_to_ts (lowerBinOp .oror) = make_str_lit "Or") ∧
    (∀ (params : List String) i (h : i < params.length), params.Nodup →
      identifier_to_ts (params.get ⟨i, h⟩) params =
        .object [make_expr_type "Parameter", ("position", make_num_lit i)]) ∧
    (∀ id params, id ∉ params →
      identifier_to_ts id params =
        .object [make_expr_type "Identifier", ("ident", make_str_lit id)]) ∧
    (∀ q params, ∃ tag props,
      expr_to_ts q params = .object (make_expr_type tag :: props) ∧
      (tag = "Binary" ∨ tag = "Property" ∨ tag = "Identifier" ∨ tag = "Parameter" ∨
        tag = "Literal")) := by
  refine ⟨?_, ⟨rfl, rfl, rfl, rfl, rfl, rfl, rfl, rfl⟩, ?_, ?_, ?_⟩
  · intro obj prop args f
    rfl
  · intro params i h hnd
    have hp := position_get_of_nodup params i h hnd
    simp only [List.get_eq_getElem] at hp
    simp [identifier_to_ts, hp]
  · intro id params hm
    simp [identifier_to_ts, position_eq_none_of_notMem id params hm]
  · intro q params
    cases q with
    | binaryExpr l op r => exact ⟨"Binary", _, rfl, Or.inl rfl⟩
    | propertyAccess o p => exact ⟨"Property", _, rfl, Or.inr (Or.inl rfl)⟩
    | identifier id =>
      unfold expr_to_ts identifier_to_ts
      cases position id params with
      | some pos =>
        exact ⟨"Parameter", _, rfl, Or.inr (Or.inr (Or.inr (Or.inl rfl)))⟩
      | none =>
        exact ⟨"Identifier", _, rfl, Or.inr (Or.inr (Or.inl rfl))⟩
    | lit l =>
      cases l with
      | bool v => exact ⟨"Literal", _, rfl, Or.inr (Or.inr (Or.inr (Or.inr rfl)))⟩
      | str s => exact ⟨"Literal", _, rfl, Or.inr (Or.inr (Or.inr (Or.inr rfl)))⟩
      | num n => exact ⟨"Literal", _, rfl, Or.inr (Or.inr (Or.inr (Or.inr rfl)))⟩

/-- Witness for `c7_rewrite_shape`: the spec's S5 example
`Users.filter(u => u.age >= 18 && u.name == "a")` rewrites to
`Users.__filterWithExpression(<original args>, <tree>)`; the parameter
`u` serialises as `Parameter` at position 0 and a free identifier as
`Identifier`. -/
theorem c7_rewrite_shape_witness :
    to_ts_expr
      ⟨Callee.expr (.member (.jsIdent "Users") (.ident "filter")),
        [⟨false, .jsIdent "lambda"⟩]⟩
      (.filter ⟨.binaryExpr
        (.binaryExpr (.propertyAccess (.identifier "u") "age") .gtEq (.lit (.num 18)))
        .and
        (.binaryExpr (.propertyAccess (.identifier "u") "name") .eq (.lit (.str "a"))),
        ["u"]⟩) =
      some ⟨Callee.expr (.member (.jsIdent "Users") (.ident "__filterWithExpression")),
        [⟨false, .jsIdent "lambda"⟩,
         ⟨false, .object [("exprType", .lit (.str "Binary")),
           ("left", .object [("exprType", .lit (.str "Binary")),
             ("left", .object [("exprType", .lit (.str "Property")),
               ("object", .object [("exprType", .lit (.str "Parameter")),
                 ("position", .lit (.num 0))]),
               ("property", .lit (.str "age"))]),
             ("op", .lit (.str "GtEq")),
             ("right", .object [("exprType", .lit (.str "Literal")),
               ("value", .lit (.num 18))])]),
           ("op", .lit (.str "And")),
           ("right", .object [("exprType", .lit (.str "Binary")),
             ("left", .object [("exprType", .lit (.str "Property")),
               ("object", .object [("exprType", .lit (.str "Parameter")),
                 ("position", .lit (.num 0))]),
               ("property", .lit (.str "name"))]),
             ("op", .lit (.str "Eq")),
             ("right", .object [("exprType", .lit (.str "Literal")),
               ("value", .lit (.str "a"))])])]⟩]⟩ ∧
    ((["u"] : List String).Nodup ∧
      identifier_to_ts "u" ["u"] =
        .object [make_expr_type "Parameter", ("position", make_num_lit 0)]) ∧
    ("limit" ∉ (["u"] : List String) ∧
      identifier_to_ts "limit" ["u"] =
        .object [make_expr_type "Identifier", ("ident", make_str_lit "limit")]) := by
  refine ⟨?_, ⟨by decide, ?_⟩, ⟨by decide, ?_⟩⟩
  · exact c7_rewrite_shape.1 (.jsIdent "Users") (.ident "filter")
      [⟨false, .jsIdent "lambda"⟩]
      ⟨.binaryExpr
        (.binaryExpr (.propertyAccess (.identifier "u") "age") .gtEq (.lit (.num 18)))
        .and
        (.binaryExpr (.propertyAccess (.identifier "u") "name") .eq (.lit (.str "a"))),
        ["u"]⟩
  · exact c7_rewrite_shape.2.2.1 ["u"] 0 (by decide) (by decide)
  · exact c7_rewrite_shape.2.2.2.1 "limit" ["u"] (by decide)

/-! ## Claim C8 — `CURRENT_REQUEST_PATH` under polling (deno.rs,
`RequestFuture` and `get_result`)

The VM thread is single-threaded and cooperative (spec §5): a poll of a
request task runs synchronously to its next suspension point, so an
execution is an interleaving of whole polls. `RequestFuture::poll`
(deno.rs lines 540-545) first runs `set_current_path(request_path)` and
only then delegates to the inner future; `get_result` (deno.rs line 621)
performs the same `set_current_path` before the first VM interaction, so
the synchronous prefix of the request behaves as one more such poll. The
only writer of the thread-local in the sources is `set_current_path`;
host ops (e.g. `op_chisel_query_create`, deno.rs line 280) read it. A
poll is therefore: one `setPath` step followed by the inner future's
reads, each tagged with the request path of the task being polled. -/

/-- One atomic step on the VM thread touching `CURRENT_REQUEST_PATH`. -/
inductive TlsStep where
  | setPath (p : String)
  | readPath (owner : String)
deriving DecidableEq

/-- One poll of one request task: the task's request path and how many
times host ops read the thread-local during that poll. -/
structure PollEvent where
  path : String
  reads : Nat
deriving DecidableEq

/-- The steps `RequestFuture::poll` contributes to the thread: write the
request path into the thread-local, then delegate (the inner future's
host-op reads). -/
def RequestFuture.pollSteps (e : PollEvent) : List TlsStep :=
  .setPath e.path :: List.replicate e.reads (.readPath e.path)

/-- Run a step list against the thread-local; each read is recorded as
`(owning request path, value observed)`. -/
def execSteps (tls : String) : List TlsStep → List (String × String)
  | [] => []
  | .setPath p :: rest => execSteps p rest
  | .readPath o :: rest => (o, tls) :: execSteps tls rest

/-- An arbitrary interleaving of wrapped request polls on the VM thread. -/
def runSchedule (tls : String) (sched : List PollEvent) : List (String × String) :=
  execSteps tls (sched.map RequestFuture.pollSteps).flatten

theorem execSteps_replicate (p : String) (n : Nat) (rest : List TlsStep) :
    execSteps p (List.replicate n (.readPath p) ++ rest) =
      List.replicate n (p, p) ++ execSteps p rest := by
  induction n with
  | zero => simp
  | succ m ih => simp [List.replicate_succ, execSteps, ih]

theorem runSchedule_cons (tls : String) (e : PollEvent) (sched : List PollEvent) :
    runSchedule tls (e :: sched) =
      List.replicate e.reads (e.path, e.path) ++ runSchedule e.path sched := by
  unfold runSchedule
  simp only [List.map_cons, List.flatten, RequestFuture.pollSteps, execSteps]
  exact execSteps_replicate e.path e.reads (sched.map RequestFuture.pollSteps).flatten

/-- Claim C8: in every interleaving of `RequestFuture`-wrapped request
polls, every host-op read of `CURRENT_REQUEST_PATH` observes the path of
the request being polled — whatever other requests ran before, and
whatever the thread-local held initially. -/
theorem c8_current_path (tls : String) (sched : List PollEvent)
    (obs : String × String) (hmem : obs ∈ runSchedule tls sched) :
    obs.2 = obs.1 := by
  induction sched generalizing tls with
  | nil => simp [runSchedule, execSteps] at hmem
  | cons e rest ih =>
    rw [runSchedule_cons] at hmem
    rcases List.mem_append.mp hmem with hrep | hrest
    · have := List.eq_of_mem_replicate hrep
      rw [this]
    · exact ih e.path hrest

/-- Witness for `c8_current_path`: two interleaved requests (paths `/a`
and `/b`); a read of request `/b` between two polls of `/a` still
observes `/b`. -/
theorem c8_current_path_witness :
    (("/b", "/b") ∈ runSchedule "" [⟨"/a", 1⟩, ⟨"/b", 2⟩, ⟨"/a", 1⟩]) ∧
    ("/b", "/b").2 = ("/b", "/b").1 :=
  ⟨by decide,
   c8_current_path "" [⟨"/a", 1⟩, ⟨"/b", 2⟩, ⟨"/a", 1⟩] ("/b", "/b") (by decide)⟩

/-! ## Claims C9 and C10 — policies.rs

`yaml_rust` parsing is an external collaborator: `from_yaml` is embedded
over the already-parsed documents, with `label["k"].as_str()` etc. as
`Option` fields (yaml `BadValue` reads as `none`). `regex::Regex` is an
external engine: a compiled regex is its match function, and compilation
(`Regex::new`, which can fail on a bad pattern) is the explicit `rc`
argument. `std::path::Path` values are their components, and
`Path::starts_with` is component-wise list prefix. `PrefixMap`
(crate::prefix_map) is not among the studied sources and is modelled from
the spec. -/

/-- A compiled `regex::Regex`: its `is_match` function. -/
structure Regex where
  isMatch : String → Bool

/-- `anonymize` (policies.rs lines 153-156). -/
def anonymize (_ : Value) : Value :=
  .str "xxxxx"

/-- `Kind` (policies.rs lines 10-16). -/
inductive Kind where
  | transform (f : Value → Value)
  | matchLogin

/-- `Policy` (policies.rs lines 18-24). -/
structure Policy where
  kind : Kind
  except_uri : Regex

/-- One entry of the yaml `labels` sequence, as read by `from_yaml`:
`label["name"].as_str()`, `label["transform"].as_str()`,
`label["match_login"].as_bool()`, `label["except_uri"].as_str()`. -/
structure YamlLabel where
  name : Option String
  transform : Option String
  match_login : Option Bool
  except_uri : Option String
deriving DecidableEq

/-- One entry of the yaml `endpoints` sequence. -/
structure YamlEndpoint where
  path : Option String
  users : Option String
deriving DecidableEq

/-- One yaml document: its `labels` and `endpoints` sequences (a missing
sequence reads as empty, per `get_or_insert(&[].into())`). -/
structure YamlDoc where
  labels : List YamlLabel
  endpoints : List YamlEndpoint
deriving DecidableEq

/-- A `std::path::Path` as its components. -/
def parsePath (s : String) : List String :=
  (s.splitOn "/").filter (fun c => c ≠ "")

/-- Modelled from the spec: `crate::prefix_map::PrefixMap::longest_prefix`
is not among the studied sources; per the spec it is a longest-prefix map,
returning the entry whose key is the longest prefix of the queried path
(`None` when no key is a prefix). -/
def PrefixMap.longestMatch {α : Type} : List (List String × α) → List String → Option (List String × α)
  | [], _ => none
  | e :: rest, p =>
    let r := PrefixMap.longestMatch rest p
    if e.1 <+: p then
      match r with
      | none => some e
      | some b => if b.1.length < e.1.length then some e else some b
    else r

/-- `UserAuthorization` (policies.rs lines 37-42). -/
structure UserAuthorization where
  paths : List (List String × Regex)

/-- `UserAuthorization::is_allowed` (policies.rs lines 44-54). -/
def UserAuthorization.is_allowed (ua : UserAuthorization) (username : Option String)
    (path : List String) : Bool :=
  match PrefixMap.longestMatch ua.paths path with
  | none => true
  | some (_, u) =>
    match username with
    | none => false
    | some name => u.isMatch name

/-- `UserAuthorization::add` (policies.rs lines 56-63): an already-present
path is an error (`PrefixMap::insert` returned the previous value). -/
def UserAuthorization.add (ua : UserAuthorization) (path : String) (users : Regex) :
    Except String UserAuthorization :=
  match AList.get? ua.paths (parsePath path) with
  | some _ => .error "Repeated path in user authorization"
  | none => .ok ⟨ua.paths ++ [(parsePath path, users)]⟩

/-- `VersionPolicy` (policies.rs lines 66-70). -/
structure VersionPolicy where
  labels : List (String × Policy)
  user_authorization : UserAuthorization

/-- The `transform` arm of the label loop (policies.rs lines 104-119):
`Some("anonymize")` installs `Kind::Transform(anonymize)` under the
label's name with the compiled `except_uri` regex (default pattern
`"^$"`); any other string is a load error; no `transform` key changes
nothing. -/
def applyTransformPart (rc : String → Except String Regex) (vp : VersionPolicy)
    (name : String) (label : YamlLabel) : Except String VersionPolicy :=
  match label.transform with
  | some x =>
    if x = "anonymize" then
      match rc (label.except_uri.getD "^$") with
      | .error e => .error e
      | .ok r =>
        .ok { vp with labels := AList.set vp.labels name ⟨.transform anonymize, r⟩ }
    else .error ("unknown transform: " ++ x ++ " for label " ++ name)
  | none => .ok vp

/-- The `match_login` arm of the label loop (policies.rs lines 120-133):
a truthy `match_login` installs `Kind::MatchLogin`, overwriting any entry
the `transform` arm made for the same label. -/
def applyMatchLoginPart (rc : String → Except String Regex) (vp : VersionPolicy)
    (name : String) (label : YamlLabel) : Except String VersionPolicy :=
  if label.match_login.getD false then
    match rc (label.except_uri.getD "^$") with
    | .error e => .error e
    | .ok r =>
      .ok { vp with labels := AList.set vp.labels name ⟨.matchLogin, r⟩ }
  else .ok vp

/-- One iteration of the label loop: a label without a name is a load
error; then the `transform` and `match_login` arms run in order. (The
source also pushes the name onto a local `labels` vector that it never
reads again; that write-only accumulator is omitted.) -/
def processLabel (rc : String → Except String Regex) (vp : VersionPolicy)
    (label : YamlLabel) : Except String VersionPolicy :=
  match label.name with
  | none => .error "label without a name"
  | some name =>
    match applyTransformPart rc vp name label with
    | .error e => .error e
    | .ok vp₁ => applyMatchLoginPart rc vp₁ name label

def processLabels (rc : String → Except String Regex) (vp : VersionPolicy) :
    List YamlLabel → Except String VersionPolicy
  | [] => .ok vp
  | l :: ls =>
    match processLabel rc vp l with
    | .error e => .error e
    | .ok vp₁ => processLabels rc vp₁ ls

/-- The endpoint loop (policies.rs lines 135-147): entries with both
`path` and `users` compile the users regex and add it under the path. -/
def processEndpoints (rc : String → Except String Regex) (vp : VersionPolicy) :
    List YamlEndpoint → Except String VersionPolicy
  | [] => .ok vp
  | ep :: eps =>
    match ep.path with
    | none => processEndpoints rc vp eps
    | some path =>
      match ep.users with
      | none => processEndpoints rc vp eps
      | some users =>
        match rc users with
        | .error e => .error e
        | .ok r =>
          match UserAuthorization.add vp.user_authorization path r with
          | .error e => .error e
          | .ok ua => processEndpoints rc { vp with user_authorization := ua } eps

def processDoc (rc : String → Except String Regex) (vp : VersionPolicy)
    (doc : YamlDoc) : Except String VersionPolicy :=
  match processLabels rc vp doc.labels with
  | .error e => .error e
  | .ok vp₁ => processEndpoints rc vp₁ doc.endpoints

def processDocs (rc : String → Except String Regex) (vp : VersionPolicy) :
    List YamlDoc → Except String VersionPolicy
  | [] => .ok vp
  | d :: ds =>
    match processDoc rc vp d with
    | .error e => .error e
    | .ok vp₁ => processDocs rc vp₁ ds

/-- `VersionPolicy::from_yaml` (policies.rs lines 89-151), over the parsed
documents, starting from the default (empty) policy. -/
def VersionPolicy.from_yaml (rc : String → Except String Regex) (docs : List YamlDoc) :
    Except String VersionPolicy :=
  processDocs rc ⟨[], ⟨[]⟩⟩ docs

/-- A label whose `transform` is a string other than `"anonymize"`. -/
def badTransform (l : YamlLabel) : Prop :=
  ∃ s, l.transform = some s ∧ s ≠ "anonymize"

theorem processLabel_bad (rc : String → Except String Regex) (vp : VersionPolicy)
    (l : YamlLabel) (hbad : badTransform l) :
    ∃ e, processLabel rc vp l = .error e := by
  obtain ⟨s, hs, hne⟩ := hbad
  cases hn : l.name with
  | none => exact ⟨"label without a name", by simp [processLabel, hn]⟩
  | some name =>
    refine ⟨"unknown transform: " ++ s ++ " for label " ++ name, ?_⟩
    simp [processLabel, hn, applyTransformPart, hs, hne]

theorem processLabels_bad (rc : String → Except String Regex) :
    ∀ (ls : List YamlLabel) (vp : VersionPolicy),
      (∃ l ∈ ls, badTransform l) → ∃ e, processLabels rc vp ls = .error e := by
  intro ls
  induction ls with
  | nil => intro vp h; simp at h
  | cons l rest ih =>
    intro vp h
    obtain ⟨l₀, hmem, hbad⟩ := h
    rcases List.mem_cons.mp hmem with rfl | htail
    · obtain ⟨e, he⟩ := processLabel_bad rc vp l₀ hbad
      exact ⟨e, by simp [processLabels, he]⟩
    · cases hpl : processLabel rc vp l with
      | error e => exact ⟨e, by simp [processLabels, hpl]⟩
      | ok vp₁ =>
        obtain ⟨e, he⟩ := ih vp₁ ⟨l₀, htail, hbad⟩
        exact ⟨e, by simp [processLabels, hpl, he]⟩

theorem processDocs_bad (rc : String → Except String Regex) :
    ∀ (docs : List YamlDoc) (vp : VersionPolicy) (doc : YamlDoc) (l : YamlLabel),
      doc ∈ docs → l ∈ doc.labels → badTransform l →
      ∃ e, processDocs rc vp docs = .error e := by
  intro docs
  induction docs with
  | nil => intro vp doc l h; simp at h
  | cons d rest ih =>
    intro vp doc l hdocs hl hbad
    rcases List.mem_cons.mp hdocs with rfl | htail
    · obtain ⟨e, he⟩ := processLabels_bad rc doc.labels vp ⟨l, hl, hbad⟩
      exact ⟨e, by simp [processDocs, processDoc, he]⟩
    · cases hpd : processDoc rc vp d with
      | error e => exact ⟨e, by simp [processDocs, hpd]⟩
      | ok vp₁ =>
        obtain ⟨e, he⟩ := ih vp₁ doc l htail hl hbad
        exact ⟨e, by simp [processDocs, hpd, he]⟩

/-- Every `Transform` policy in the label table is `anonymize`. -/
def labelsAnonymize (ls : List (String × Policy)) : Prop :=
  ∀ name p, AList.get? ls name = some p → ∀ f, p.kind = Kind.transform f → f = anonymize

theorem labelsAnonymize_set (ls : List (String × Policy)) (name : String) (pol : Policy)
    (h : labelsAnonymize ls) (hp : ∀ f, pol.kind = Kind.transform f → f = anonymize) :
    labelsAnonymize (AList.set ls name pol) := by
  intro n p hget f hk
  by_cases hn : name = n
  · subst hn
    rw [AList.get_set_self] at hget
    cases hget
    exact hp f hk
  · rw [AList.get_set_ne _ _ _ _ hn] at hget
    exact h n p hget f hk

theorem applyTransformPart_anon (rc : String → Except String Regex) (vp : VersionPolicy)
    (name : String) (label : YamlLabel) (vp₁ : VersionPolicy)
    (hinv : labelsAnonymize vp.labels)
    (h : applyTransformPart rc vp name label = .ok vp₁) : labelsAnonymize vp₁.labels := by
  unfold applyTransformPart at h
  cases ht : label.transform with
  | none => rw [ht] at h; cases h; exact hinv
  | some x =>
    rw [ht] at h
    dsimp only at h
    by_cases hx : x = "anonymize"
    · rw [if_pos hx] at h
      cases hrc : rc (label.except_uri.getD "^$") with
      | error e => rw [hrc] at h; exact absurd h (by simp)
      | ok r =>
        rw [hrc] at h
        cases h
        exact labelsAnonymize_set _ _ _ hinv (fun f hf => by
          cases hf
          rfl)
    · rw [if_neg hx] at h
      exact absurd h (by simp)

theorem applyMatchLoginPart_anon (rc : String → Except String Regex) (vp : VersionPolicy)
    (name : String) (label : YamlLabel) (vp₁ : VersionPolicy)
    (hinv : labelsAnonymize vp.labels)
    (h : applyMatchLoginPart rc vp name label = .ok vp₁) : labelsAnonymize vp₁.labels := by
  unfold applyMatchLoginPart at h
  by_cases hb : label.match_login.getD false
  · rw [if_pos hb] at h
    cases hrc : rc (label.except_uri.getD "^$") with
    | error e => rw [hrc] at h; exact absurd h (by simp)
    | ok r =>
      rw [hrc] at h
      cases h
      exact labelsAnonymize_set _ _ _ hinv (fun f hf => by cases hf)
  · rw [if_neg hb] at h
    cases h
    exact hinv

theorem processLabel_anon (rc : String → Except String Regex) (vp : VersionPolicy)
    (label : YamlLabel) (vp₁ : VersionPolicy) (hinv : labelsAnonymize vp.labels)
    (h : processLabel rc vp label = .ok vp₁) : labelsAnonymize vp₁.labels := by
  unfold processLabel at h
  cases hn : label.name with
  | none => rw [hn] at h; exact absurd h (by simp)
  | some name =>
    rw [hn] at h
    dsimp only at h
    cases hat : applyTransformPart rc vp name label with
    | error e => rw [hat] at h; exact absurd h (by simp)
    | ok vpMid =>
      rw [hat] at h
      exact applyMatchLoginPart_anon rc vpMid name label vp₁
        (applyTransformPart_anon rc vp name label vpMid hinv hat) h

theorem processLabels_anon (rc : String → Except String Regex) :
    ∀ (ls : List YamlLabel) (vp vp₁ : VersionPolicy), labelsAnonymize vp.labels →
      processLabels rc vp ls = .ok vp₁ → labelsAnonymize vp₁.labels := by
  intro ls
  induction ls with
  | nil => intro vp vp₁ hinv h; cases h; exact hinv
  | cons l rest ih =>
    intro vp vp₁ hinv h
    unfold processLabels at h
    cases hpl : processLabel rc vp l with
    | error e => rw [hpl] at h; exact absurd h (by simp)
    | ok vpMid =>
      rw [hpl] at h
      exact ih vpMid vp₁ (processLabel_anon rc vp l vpMid hinv hpl) h

theorem processEndpoints_labels (rc : String → Except String Regex) :
    ∀ (eps : List YamlEndpoint) (vp vp₁ : VersionPolicy),
      processEndpoints rc vp eps = .ok vp₁ → vp₁.labels = vp.labels := by
  intro eps
  induction eps with
  | nil => intro vp vp₁ h; cases h; rfl
  | cons ep rest ih =>
    intro vp vp₁ h
    unfold processEndpoints at h
    cases hp : ep.path with
    | none => rw [hp] at h; exact ih vp vp₁ h
    | some path =>
      rw [hp] at h
      dsimp only at h
      cases hu : ep.users with
      | none => rw [hu] at h; exact ih vp vp₁ h
      | some users =>
        rw [hu] at h
        dsimp only at h
        cases hrc : rc users with
        | error e => rw [hrc] at h; exact absurd h (by simp)
        | ok r =>
          rw [hrc] at h
          dsimp only at h
          cases hadd : UserAuthorization.add vp.user_authorization path r with
          | error e => rw [hadd] at h; exact absurd h (by simp)
          | ok ua => rw [hadd] at h; exact ih ⟨vp.labels, ua⟩ vp₁ h

theorem processDocs_anon (rc : String → Except String Regex) :
    ∀ (docs : List YamlDoc) (vp vp₁ : VersionPolicy), labelsAnonymize vp.labels →
      processDocs rc vp docs = .ok vp₁ → labelsAnonymize vp₁.labels := by
  intro docs
  induction docs with
  | nil => intro vp vp₁ hinv h; cases h; exact hinv
  | cons d rest ih =>
    intro vp vp₁ hinv h
    unfold processDocs at h
    cases hpd : processDoc rc vp d with
    | error e => rw [hpd] at h; exact absurd h (by simp)
    | ok vpMid =>
      rw [hpd] at h
      refine ih vpMid vp₁ ?_ h
      unfold processDoc at hpd
      cases hpl : processLabels rc vp d.labels with
      | error e => rw [hpl] at hpd; exact absurd hpd (by simp)
      | ok vpL =>
        rw [hpl] at hpd
        have hl := processEndpoints_labels rc d.endpoints vpL vpMid hpd
        rw [hl]
        exact processLabels_anon rc d.labels vp vpL hinv hpl

/-- Claim C9: a yaml policy containing a label whose `transform` is any
string other than `"anonymize"` fails to load; `anonymize` turns every
JSON value into the string `"xxxxx"`, and every `Transform` policy a
successful load installs is that map. -/
theorem c9_policy_yaml :
    (∀ rc docs doc l, doc ∈ docs → l ∈ (doc : YamlDoc).labels →
      (∃ s, l.transform = some s ∧ s ≠ "anonymize") →
      ∃ e, VersionPolicy.from_yaml rc docs = .error e) ∧
    (∀ v, anonymize v = Value.str "xxxxx") ∧
    (∀ rc docs vp, VersionPolicy.from_yaml rc docs = .ok vp →
      ∀ name p, AList.get? vp.labels name = some p →
        ∀ f, p.kind = Kind.transform f → ∀ v, f v = Value.str "xxxxx") := by
  refine ⟨?_, fun v => rfl, ?_⟩
  · intro rc docs doc l hdoc hl hbad
    exact processDocs_bad rc docs ⟨[], ⟨[]⟩⟩ doc l hdoc hl hbad
  · intro rc docs vp h name p hget f hk v
    have hinv : labelsAnonymize vp.labels :=
      processDocs_anon rc docs ⟨[], ⟨[]⟩⟩ vp (fun n p₀ hg => by cases hg) h
    rw [hinv name p hget f hk]
    rfl

/-- Witness for `c9_policy_yaml`: a label with `transform: encrypt` fails
to load; loading a label with `transform: anonymize` installs a transform
that turns a concrete number into `"xxxxx"`. -/
theorem c9_policy_yaml_witness :
    (∃ e, VersionPolicy.from_yaml (fun _ => .ok ⟨fun _ => false⟩)
      [⟨[⟨some "pii", some "encrypt", none, none⟩], []⟩] = .error e) ∧
    (VersionPolicy.from_yaml (fun _ => .ok ⟨fun _ => false⟩)
      [⟨[⟨some "pii", some "anonymize", none, none⟩], []⟩] =
      .ok ⟨[("pii", ⟨.transform anonymize, ⟨fun _ => false⟩⟩)], ⟨[]⟩⟩ ∧
     anonymize (Value.num 7) = Value.str "xxxxx") :=
  ⟨c9_policy_yaml.1 (fun _ => .ok ⟨fun _ => false⟩)
    [⟨[⟨some "pii", some "encrypt", none, none⟩], []⟩]
    ⟨[⟨some "pii", some "encrypt", none, none⟩], []⟩
    ⟨some "pii", some "encrypt", none, none⟩
    (List.mem_singleton.mpr rfl) (List.mem_singleton.mpr rfl)
    ⟨"encrypt", rfl, by decide⟩,
   rfl,
   c9_policy_yaml.2.2 (fun _ => .ok ⟨fun _ => false⟩)
    [⟨[⟨some "pii", some "anonymize", none, none⟩], []⟩]
    ⟨[("pii", ⟨.transform anonymize, ⟨fun _ => false⟩⟩)], ⟨[]⟩⟩ rfl
    "pii" ⟨.transform anonymize, ⟨fun _ => false⟩⟩ rfl anonymize rfl (Value.num 7)⟩

theorem longestMatch_none {α : Type} (m : List (List String × α)) (p : List String)
    (h : ∀ e ∈ m, ¬ e.1 <+: p) : PrefixMap.longestMatch m p = none := by
  induction m with
  | nil => rfl
  | cons e rest ih =>
    have hpe := h e (List.mem_cons_self e rest)
    simp only [PrefixMap.longestMatch]
    rw [if_neg hpe]
    exact ih (fun e' he' => h e' (List.mem_cons_of_mem e he'))

theorem longestMatch_isSome {α : Type} (m : List (List String × α)) (p : List String)
    (e₀ : List String × α) (hmem : e₀ ∈ m) (hpre : e₀.1 <+: p) :
    ∃ k r, PrefixMap.longestMatch m p = some (k, r) := by
  induction m with
  | nil => cases hmem
  | cons e rest ih =>
    by_cases hp : e.1 <+: p
    · cases hr : PrefixMap.longestMatch rest p with
      | none =>
        refine ⟨e.1, e.2, ?_⟩
        simp only [PrefixMap.longestMatch]
        rw [if_pos hp, hr]
      | some b =>
        by_cases hlen : b.1.length < e.1.length
        · refine ⟨e.1, e.2, ?_⟩
          simp only [PrefixMap.longestMatch]
          rw [if_pos hp, hr]
          dsimp only
          rw [if_pos hlen]
        · refine ⟨b.1, b.2, ?_⟩
          simp only [PrefixMap.longestMatch]
          rw [if_pos hp, hr]
          dsimp only
          rw [if_neg hlen]
    · rcases List.mem_cons.mp hmem with rfl | hrest
      · exact absurd hpre hp
      · obtain ⟨k, r, hr⟩ := ih hrest
        refine ⟨k, r, ?_⟩
        simp only [PrefixMap.longestMatch]
        rw [if_neg hp]
        exact hr

theorem longestMatch_sound {α : Type} (p : List String) :
    ∀ (m : List (List String × α)) (k : List String) (r : α),
      PrefixMap.longestMatch m p = some (k, r) →
      (k, r) ∈ m ∧ k <+: p ∧ ∀ e ∈ m, e.1 <+: p → e.1.length ≤ k.length := by
  intro m
  induction m with
  | nil => intro k r h; cases h
  | cons e rest ih =>
    intro k r h
    simp only [PrefixMap.longestMatch] at h
    by_cases hp : e.1 <+: p
    · rw [if_pos hp] at h
      cases hr : PrefixMap.longestMatch rest p with
      | none =>
        rw [hr] at h
        obtain rfl : e = (k, r) := Option.some.inj h
        refine ⟨List.mem_cons_self _ _, hp, ?_⟩
        intro e' he' hpe'
        rcases List.mem_cons.mp he' with rfl | hrest'
        · exact le_refl _
        · obtain ⟨k', r', hsome⟩ := longestMatch_isSome rest p e' hrest' hpe'
          rw [hr] at hsome
          cases hsome
      | some b =>
        rw [hr] at h
        dsimp only at h
        by_cases hlen : b.1.length < e.1.length
        · rw [if_pos hlen] at h
          obtain rfl : e = (k, r) := Option.some.inj h
          refine ⟨List.mem_cons_self _ _, hp, ?_⟩
          intro e' he' hpe'
          rcases List.mem_cons.mp he' with rfl | hrest'
          · exact le_refl _
          · obtain ⟨hbm, hbp, hbmax⟩ := ih b.1 b.2 (by rw [hr])
            exact le_trans (hbmax e' hrest' hpe') (Nat.le_of_lt hlen)
        · rw [if_neg hlen] at h
          obtain rfl : b = (k, r) := Option.some.inj h
          obtain ⟨hbm, hbp, hbmax⟩ := ih k r hr
          refine ⟨List.mem_cons_of_mem _ hbm, hbp, ?_⟩
          intro e' he' hpe'
          rcases List.mem_cons.mp he' with rfl | hrest'
          · exact not_lt.mp hlen
          · exact hbmax e' hrest' hpe'
    · rw [if_neg hp] at h
      obtain ⟨hm, hpre, hmax⟩ := ih k r h
      refine ⟨List.mem_cons_of_mem _ hm, hpre, ?_⟩
      intro e' he' hpe'
      rcases List.mem_cons.mp he' with rfl | hrest'
      · exact absurd hpe' hp
      · exact hmax e' hrest' hpe'

/-- Claim C10: `is_allowed` returns `true` when no authorization-map key is
a prefix of the path; when some key is a prefix, an unauthenticated
request is denied, and an authenticated one is allowed exactly when the
username matches the regex of the longest matching prefix (the entry
`longestMatch` returns is in the map, is a prefix, and is longest among
all matching prefixes). -/
theorem c10_is_allowed :
    (∀ (ua : UserAuthorization) (u : Option String) (p : List String),
      (∀ e ∈ ua.paths, ¬ e.1 <+: p) → UserAuthorization.is_allowed ua u p = true) ∧
    (∀ (ua : UserAuthorization) (p : List String) (e₀ : List String × Regex),
      e₀ ∈ ua.paths → e₀.1 <+: p → UserAuthorization.is_allowed ua none p = false) ∧
    (∀ (ua : UserAuthorization) (u : String) (p k : List String) (r : Regex),
      PrefixMap.longestMatch ua.paths p = some (k, r) →
      (UserAuthorization.is_allowed ua (some u) p = true ↔ r.isMatch u = true)) ∧
    (∀ (m : List (List String × Regex)) (p k : List String) (r : Regex),
      PrefixMap.longestMatch m p = some (k, r) →
      (k, r) ∈ m ∧ k <+: p ∧ ∀ e ∈ m, e.1 <+: p → e.1.length ≤ k.length) := by
  refine ⟨?_, ?_, ?_, ?_⟩
  · intro ua u p h
    simp [UserAuthorization.is_allowed, longestMatch_none ua.paths p h]
  · intro ua p e₀ hmem hpre
    obtain ⟨k, r, hr⟩ := longestMatch_isSome ua.paths p e₀ hmem hpre
    simp [UserAuthorization.is_allowed, hr]
  · intro ua u p k r h
    simp [UserAuthorization.is_allowed, h]
  · intro m p k r h
    exact longestMatch_sound p m k r h

/-- The compiled regex of the witness: matches exactly `"root"`. -/
def rgxRoot : Regex := ⟨fun s => s == "root"⟩

/-- The witness authorization map: `/admin` restricted to `root`. -/
def uaAdmin : UserAuthorization := ⟨[(["admin"], rgxRoot)]⟩

/-- Witness for `c10_is_allowed`: a path outside `/admin` needs no login;
an unauthenticated request under `/admin` is denied; `root` is allowed. -/
theorem c10_is_allowed_witness :
    UserAuthorization.is_allowed uaAdmin none ["pub"] = true ∧
    UserAuthorization.is_allowed uaAdmin none ["admin", "users"] = false ∧
    UserAuthorization.is_allowed uaAdmin (some "root") ["admin", "users"] = true := by
  have hlm : PrefixMap.longestMatch uaAdmin.paths ["admin", "users"] =
      some (["admin"], rgxRoot) := by
    simp only [uaAdmin, PrefixMap.longestMatch]
    rw [if_pos (by decide : (["admin"] : List String) <+: ["admin", "users"])]
  refine ⟨?_, ?_, ?_⟩
  · refine c10_is_allowed.1 uaAdmin none ["pub"] ?_
    intro e he
    rcases List.mem_singleton.mp he with rfl
    decide
  · exact c10_is_allowed.2.1 uaAdmin ["admin", "users"] (["admin"], rgxRoot)
      (List.mem_singleton.mpr rfl) (by decide)
  · exact (c10_is_allowed.2.2.1 uaAdmin "root" ["admin", "users"] ["admin"] rgxRoot hlm).mpr
      (by decide)
